import Mathlib

/-!
Shallow embedding of `fbgemm_gpu/src/split_embeddings_cache/cachelib_cache.cpp`
(`namespace l2_cache`, class `CacheLibCache`): a sharded, capacity-bounded
LRU cache over 64-bit integer keys and byte rows, with an eviction-capture
callback that copies evicted keys and rows into caller-bound tensors.

Rows are modelled as `List Int` (one `Int` per stored scalar element); a
row's byte size is proportional to its length, so capacity accounting is
done in elements.  Fallible C++ paths (null-pointer dereference inside the
remove callback, out-of-bounds pool indexing) are modelled with `Option`:
`none` means the C++ program crashes / has undefined behaviour there.
-/

namespace l2_cache

/-- `facebook::cachelib::RemoveContext`: why an item is being removed.
`kEviction` is a genuine capacity eviction; `kNormal` covers removal on
`insertOrReplace` of an existing key (overwrite without space pressure). -/
inductive RemoveContext where
  | kEviction : RemoveContext
  | kNormal : RemoveContext
deriving DecidableEq, Repr

def RemoveContext.isEviction : RemoveContext → Bool
  | .kEviction => true
  | .kNormal => false

/-- `facebook::cachelib::LruAllocator::RemoveCbData`: the removed item's
key (`data.item.getKey()` reinterpreted as `int64_t`), its stored row
(`data.item.getMemory()`, `weight_dim` scalars), and the removal context. -/
structure RemoveEvent where
  context : RemoveContext
  key : Int
  bytes : List Int
deriving DecidableEq, Repr

/-- The tensor `*evicted_weights_ptr_`: an `n × width` row buffer stored
flat (row `i` occupies `data[i*width .. (i+1)*width)`). -/
structure EvBuf where
  rows : Nat
  width : Nat
  data : List Int
deriving DecidableEq, Repr

/-- One cachelib memory pool (`cache_->addPool(...)`): a bounded LRU store.
`entries` is kept most-recently-used first, so the list tail is the LRU
end that eviction consumes. -/
structure Pool where
  capacity : Nat
  entries : List (Int × List Int)
deriving DecidableEq, Repr

/-- Bytes currently resident in a pool (sum of row sizes). -/
def Pool.usedBytes (p : Pool) : Nat :=
  (p.entries.map (fun e => e.2.length)).sum

/-- Modelled from the spec: `PoolStats::freeMemoryBytes()` of the external
cachelib library — "queries the pool's current free space; capacity is
fixed at construction" (spec §4.2 `usage()`). -/
def Pool.freeBytes (p : Pool) : Nat :=
  p.capacity - p.usedBytes

def entriesUsed (l : List (Int × List Int)) : Nat :=
  (l.map (fun e => e.2.length)).sum

/-- Modelled from the spec: the eviction step of cachelib's pool
allocator (spec §4.2) — "least-recently-used victim selection per shard";
victims are evicted "to satisfy this allocation ... strictly within the
same call".  Works on the reversed entry list (LRU end first): drops
LRU entries until `need` bytes fit in `cap`; returns the surviving
reversed entries and the victims in eviction order (LRU-most first). -/
def evictRev (need cap : Nat) : List (Int × List Int) →
    List (Int × List Int) × List (Int × List Int)
  | [] => ([], [])
  | e :: rest =>
    if entriesUsed (e :: rest) + need ≤ cap then (e :: rest, [])
    else
      let r := evictRev need cap rest
      (r.1, e :: r.2)

/-- Modelled from the spec: one `put` against a single shard pool —
`cache_->allocate` (may evict LRU victims), `memcpy`, and
`cache_->insertOrReplace` (spec §4.2).  Returns `none` on allocation
failure ("no single free slot of sufficient size even after considering
eviction", here: the row is larger than the pool capacity), in which case
the pool is untouched.  On success returns the new pool, the list of
genuine eviction victims in eviction order, and the row the replaced
entry for `key` held (if `key` was present: `insertOrReplace` removes it
with a `kNormal` removal, not an eviction). -/
def Pool.put (p : Pool) (key : Int) (row : List Int) :
    Option (Pool × List (Int × List Int) × Option (List Int)) :=
  if p.capacity < row.length then none
  else
    let replaced := (p.entries.find? (fun e => e.1 == key)).map (fun e => e.2)
    let rest := p.entries.filter (fun e => e.1 != key)
    let r := evictRev row.length p.capacity rest.reverse
    some (⟨p.capacity, (key, row) :: r.1.reverse⟩, r.2, replaced)

/-- Look a key up in a pool without touching recency. -/
def Pool.find (p : Pool) (key : Int) : Option (List Int) :=
  (p.entries.find? (fun e => e.1 == key)).map (fun e => e.2)

/-- Modelled from the spec: a pool hit "marks the entry as
most-recently-used" (spec §4.2 `get`): move the entry for `key` to the
MRU front, leaving the pool unchanged on a miss. -/
def Pool.promote (p : Pool) (key : Int) : Pool :=
  match p.entries.find? (fun e => e.1 == key) with
  | none => p
  | some e => ⟨p.capacity, e :: p.entries.filter (fun x => x.1 != key)⟩

/-- The state of one `CacheLibCache` instance: the configured capacity
(`cache_config_.cacheSizeBytes`), the per-shard pools (`pool_ids_`, pool
`i` backing shard `i`), and the eviction-capture state
(`evicted_indices_ptr_`, `evicted_weights_ptr_` — `none` models a null
`std::shared_ptr` — and the shared cursor `eviction_row_id`). -/
structure CacheState where
  cacheSizeBytes : Nat
  pools : List Pool
  evicted_indices : Option (List Int)
  evicted_weights : Option EvBuf
  eviction_row_id : Nat
deriving DecidableEq, Repr

/-- Modelled from the spec: `kv_db_utils::hash_shard` (declared in
`kv_db_cpp_utils.h`, body not under `src/`) — "a pure, deterministic
function of the key and shard count (e.g., a stable hash modulo shard
count)" (spec §4.1). -/
def hash_shard (key : Int) (num_shards : Nat) : Nat :=
  (key.natAbs * 2654435761 + 40503) % num_shards

/-- `CacheLibCache::CacheLibCache(size_t cacheSizeBytes, int64_t num_shards)`:
stores the config, then `for (int i = 0; i < num_shards; i++)` adds one
pool of `ramCacheSize / num_shards` bytes (with `ramCacheSize` modelled as
the configured size).  The loop body never runs when `num_shards ≤ 0`;
the constructor itself performs no validation of its arguments.  The
member initializer `eviction_row_id = 0` is modelled from the spec
(declared in `cachelib_cache.h`, not under `src/`). -/
def CacheLibCache.construct (cacheSizeBytes : Nat) (num_shards : Int) : CacheState :=
  { cacheSizeBytes := cacheSizeBytes
    pools := (List.range num_shards.toNat).map
      (fun _ => ⟨cacheSizeBytes / num_shards.toNat, []⟩)
    evicted_indices := none
    evicted_weights := none
    eviction_row_id := 0 }

/-- Overwrite `v.length` elements of `l` starting at offset `off`
(`std::copy` into `&dst[off]`). -/
def writeSlice (l : List Int) (off : Nat) (v : List Int) : List Int :=
  l.take off ++ v ++ l.drop (off + v.length)

/-- The remove callback `eviction_cb` registered in
`CacheLibCache::initializeCacheLib`.  It first dispatches on
`evicted_weights_ptr_->scalar_type()` (a dereference: `none` — a crash —
when no weight buffer is bound), then, only when
`data.context == RemoveContext::kEviction`, reserves
`row_id = eviction_row_id++`, writes the evicted key at
`indices_data_ptr[row_id]` (dereferencing `evicted_indices_ptr_`) and
copies `weight_dim` scalars to `&weights_data_ptr[row_id * weight_dim]`. -/
def eviction_cb (s : CacheState) (ev : RemoveEvent) : Option CacheState :=
  match s.evicted_weights with
  | none => none
  | some wbuf =>
    match ev.context with
    | .kNormal => some s
    | .kEviction =>
      match s.evicted_indices with
      | none => none
      | some ibuf =>
        let row_id := s.eviction_row_id
        some { s with
          evicted_indices := some (ibuf.set row_id ev.key)
          evicted_weights := some ⟨wbuf.rows, wbuf.width,
            writeSlice wbuf.data (row_id * wbuf.width) ev.bytes⟩
          eviction_row_id := row_id + 1 }

/-- Run the remove callback over a sequence of removal events, in order
(cachelib invokes it synchronously, once per removal). -/
def processEvents (s : CacheState) (evs : List RemoveEvent) : Option CacheState :=
  evs.foldlM eviction_cb s

/-- `CacheLibCache::get_shard_id`: `hash_shard(key, pool_ids_.size())`. -/
def CacheLibCache.get_shard_id (s : CacheState) (key : Int) : Nat :=
  hash_shard key s.pools.length

/-- `CacheLibCache::get(int64_t key)`: `cache_->find(key_str)`; `nullopt`
on miss, otherwise the item's stored row (and an LRU promotion in the
owning pool).  The find is over the global access container, so every
pool is searched. -/
def CacheLibCache.get (s : CacheState) (key : Int) :
    Option (List Int) × CacheState :=
  match (s.pools.map (fun p => p.find key)).reduceOption.head? with
  | none => (none, s)
  | some row =>
    (some row, { s with pools := s.pools.map (fun p => p.promote key) })

/-- `CacheLibCache::put(int64_t key, const at::Tensor& data)`: allocate
from the pool `pool_ids_[get_shard_id(key)]` (`none` — undefined
behaviour — if that index is out of bounds, i.e. the cache has no
shards); on allocation failure log and return `false` with the cache
untouched; otherwise copy the bytes, `insertOrReplace`, and return
`true`.  Every removal the operation triggers (genuine evictions during
`allocate`, then the `kNormal` removal of a replaced entry) runs the
remove callback synchronously; `none` models the callback crashing. -/
def CacheLibCache.put (s : CacheState) (key : Int) (data : List Int) :
    Option (Bool × CacheState) :=
  match s.pools[CacheLibCache.get_shard_id s key]? with
  | none => none
  | some pool =>
    match pool.put key data with
    | none => some (false, s)
    | some (pool', victims, replaced) =>
      let events := victims.map (fun e => RemoveEvent.mk .kEviction e.1 e.2) ++
        (match replaced with
         | none => []
         | some old => [RemoveEvent.mk .kNormal key old])
      match processEvents s events with
      | none => none
      | some s₁ =>
        some (true, { s₁ with
          pools := s₁.pools.set (CacheLibCache.get_shard_id s key) pool' })

/-- `CacheLibCache::init_tensor_for_l2_eviction`: reads
`num_lookups = count.item<long>()`, binds
`evicted_indices_ptr_ = ones(num_lookups) * -1` and
`evicted_weights_ptr_ = empty({num_lookups, weights.size(1)})` (the
uninitialized contents are modelled as zeros; only the shape is
meaningful).  The cursor is not touched. -/
def CacheLibCache.init_tensor_for_l2_eviction (s : CacheState)
    (weight_dim : Nat) (count : Nat) : CacheState :=
  { s with
    evicted_indices := some (List.replicate count (-1))
    evicted_weights := some ⟨count, weight_dim,
      List.replicate (count * weight_dim) 0⟩ }

/-- `CacheLibCache::reset_eviction_states()`: `eviction_row_id = 0`. -/
def CacheLibCache.reset_eviction_states (s : CacheState) : CacheState :=
  { s with eviction_row_id := 0 }

/-- `CacheLibCache::get_evicted_indices_and_weights()`: the pair of bound
buffers, or `folly::none` when no key buffer is bound. -/
def CacheLibCache.get_evicted_indices_and_weights (s : CacheState) :
    Option (List Int × EvBuf) :=
  match s.evicted_indices, s.evicted_weights with
  | some ibuf, some wbuf => some (ibuf, wbuf)
  | _, _ => none

/-- `CacheLibCache::get_cache_usage()`: a two-element vector with
`[1] = cache_config_.cacheSizeBytes` and `[0] =` the sum of
`getPoolStats(pool_id).freeMemoryBytes()` over all pools.  Returned
together with the (unchanged) state to make the absence of mutation a
statable fact. -/
def CacheLibCache.get_cache_usage (s : CacheState) :
    List Int × CacheState :=
  ([((s.pools.map Pool.freeBytes).sum : Int), (s.cacheSizeBytes : Int)], s)

/-! ### Helper lemmas -/

/-- The genuine-eviction events of a removal sequence, in order. -/
def evictionsOf (evs : List RemoveEvent) : List RemoveEvent :=
  evs.filter (fun e => e.context.isEviction)

theorem evictionsOf_nil : evictionsOf [] = [] := rfl

theorem evictionsOf_cons (e : RemoveEvent) (evs : List RemoveEvent) :
    evictionsOf (e :: evs) =
      if e.context.isEviction then e :: evictionsOf evs else evictionsOf evs := by
  simp only [evictionsOf, List.filter_cons]

theorem writeSlice_length (l v : List Int) (off : Nat)
    (h : off + v.length ≤ l.length) : (writeSlice l off v).length = l.length := by
  simp only [writeSlice, List.length_append, List.length_take, List.length_drop]
  omega

theorem take_set_succ (l : List Int) (i : Nat) (a : Int) (h : i < l.length) :
    (l.set i a).take (i + 1) = l.take i ++ [a] := by
  rw [List.set_eq_take_cons_drop a h, List.take_append_eq_append_take]
  simp [List.length_take, Nat.min_eq_left (Nat.le_of_lt h), Nat.le_of_lt h]

theorem writeSlice_take_exact (l v : List Int) (off : Nat) (hoff : off ≤ l.length) :
    (writeSlice l off v).take (off + v.length) = l.take off ++ v := by
  have hlen : (l.take off).length = off := by
    simp [List.length_take, Nat.min_eq_left hoff]
  calc (writeSlice l off v).take (off + v.length)
      = ((l.take off ++ (v ++ l.drop (off + v.length))).take
          ((l.take off).length + v.length)) := by
        simp [writeSlice, hlen]
    _ = l.take off ++ (v ++ l.drop (off + v.length)).take v.length :=
        List.take_append v.length
    _ = l.take off ++ v := by
        have h0 : (v ++ l.drop (off + v.length)).take v.length
            = (v ++ l.drop (off + v.length)).take (v.length + 0) := by simp
        rw [h0]
        have h1 := @List.take_append Int v (l.drop (off + v.length)) 0
        simp at h1
        simp [h1]

theorem writeSlice_drop (l v : List Int) (off j : Nat) (hoff : off ≤ l.length) :
    (writeSlice l off v).drop (off + v.length + j) = l.drop (off + v.length + j) := by
  have hlen : (l.take off).length = off := by
    simp [List.length_take, Nat.min_eq_left hoff]
  have h1 : (writeSlice l off v).drop (off + v.length + j)
      = ((v ++ l.drop (off + v.length)).drop (v.length + j)) := by
    have heq : off + v.length + j = (l.take off).length + (v.length + j) := by omega
    rw [writeSlice, List.append_assoc, heq]
    exact List.drop_append (v.length + j)
  have h2 : (v ++ l.drop (off + v.length)).drop (v.length + j)
      = (l.drop (off + v.length)).drop j := by
    have heq : v.length + j = v.length + j := rfl
    exact List.drop_append j
  rw [h1, h2, List.drop_drop]

theorem flatten_uniform_length (w : Nat) (rows : List (List Int))
    (h : ∀ r ∈ rows, r.length = w) : rows.flatten.length = rows.length * w := by
  induction rows with
  | nil => simp
  | cons r rest ih =>
    have hr : r.length = w := h r (List.mem_cons_self r rest)
    have := ih (fun x hx => h x (List.mem_cons_of_mem r hx))
    simp only [List.flatten_cons, List.length_append, List.length_cons, this, hr,
      Nat.succ_mul]
    omega

theorem flatten_slice (w : Nat) (rows : List (List Int)) :
    ∀ (i : Nat) (tail : List Int), (∀ r ∈ rows, r.length = w) → i < rows.length →
    rows[i]? = some (((rows.flatten ++ tail).drop (i * w)).take w) := by
  induction rows with
  | nil => intro i tail _ hi; simp at hi
  | cons r rest ih =>
    intro i tail hlen hi
    have hr : r.length = w := hlen r (List.mem_cons_self r rest)
    match i with
    | 0 =>
      simp only [List.getElem?_cons_zero, Nat.zero_mul, List.drop_zero,
        List.flatten_cons, List.append_assoc]
      have : (r ++ (rest.flatten ++ tail)).take w
          = (r ++ (rest.flatten ++ tail)).take (r.length + 0) := by simp [hr]
      rw [this]
      have h2 := @List.take_append Int r (rest.flatten ++ tail) 0
      simp at h2
      simp [h2]
    | i + 1 =>
      have hrest : ∀ x ∈ rest, x.length = w :=
        fun x hx => hlen x (List.mem_cons_of_mem r hx)
      have hi' : i < rest.length := by simpa using hi
      have hsub : (i + 1) * w = r.length + i * w := by
        rw [hr]; ring
      rw [List.getElem?_cons_succ, List.flatten_cons, List.append_assoc, hsub]
      rw [List.drop_append (i * w)]
      exact ih i tail hrest hi'

theorem eviction_cb_frame (s s' : CacheState) (ev : RemoveEvent)
    (h : eviction_cb s ev = some s') :
    s'.pools = s.pools ∧ s'.cacheSizeBytes = s.cacheSizeBytes := by
  unfold eviction_cb at h
  split at h
  · exact absurd h (by simp)
  · split at h
    · exact ⟨by injection h with h'; rw [← h'], by injection h with h'; rw [← h']⟩
    · split at h
      · exact absurd h (by simp)
      · exact ⟨by injection h with h'; rw [← h'], by injection h with h'; rw [← h']⟩

theorem processEvents_frame (evs : List RemoveEvent) :
    ∀ (s s' : CacheState), processEvents s evs = some s' →
    s'.pools = s.pools ∧ s'.cacheSizeBytes = s.cacheSizeBytes := by
  induction evs with
  | nil =>
    intro s s' h
    simp only [processEvents, List.foldlM_nil] at h
    injection h with h'
    rw [← h']
    exact ⟨rfl, rfl⟩
  | cons e rest ih =>
    intro s s' h
    simp only [processEvents, List.foldlM_cons] at h
    rcases Option.bind_eq_some.mp h with ⟨s₂, hc, hrest⟩
    have h1 := eviction_cb_frame s s₂ e hc
    have h2 := ih s₂ s' hrest
    exact ⟨h2.1.trans h1.1, h2.2.trans h1.2⟩

theorem eviction_cb_total (s : CacheState) (ev : RemoveEvent)
    (hi : s.evicted_indices.isSome = true) (hw : s.evicted_weights.isSome = true) :
    ∃ s', eviction_cb s ev = some s' ∧
      s'.evicted_indices.isSome = true ∧ s'.evicted_weights.isSome = true := by
  rcases Option.isSome_iff_exists.mp hi with ⟨ibuf, hib⟩
  rcases Option.isSome_iff_exists.mp hw with ⟨wbuf, hwb⟩
  unfold eviction_cb
  rw [hwb]
  cases ev.context with
  | kNormal => exact ⟨s, rfl, hi, hw⟩
  | kEviction =>
    rw [hib]
    exact ⟨_, rfl, by simp, by simp⟩

theorem processEvents_total (evs : List RemoveEvent) :
    ∀ (s : CacheState), s.evicted_indices.isSome = true →
    s.evicted_weights.isSome = true →
    ∃ s', processEvents s evs = some s' := by
  induction evs with
  | nil => intro s _ _; exact ⟨s, rfl⟩
  | cons e rest ih =>
    intro s hi hw
    rcases eviction_cb_total s e hi hw with ⟨s₂, hc, hi₂, hw₂⟩
    rcases ih s₂ hi₂ hw₂ with ⟨s', hrest⟩
    refine ⟨s', ?_⟩
    simp only [processEvents, List.foldlM_cons, hc]
    exact hrest

theorem processEvents_unbound (s : CacheState) (e : RemoveEvent)
    (evs : List RemoveEvent) (h : s.evicted_weights = none) :
    processEvents s (e :: evs) = none := by
  have hc : eviction_cb s e = none := by unfold eviction_cb; rw [h]
  simp only [processEvents, List.foldlM_cons, hc]
  rfl

/-- Core characterization of the eviction-capture fold: starting from
cursor `c` with correctly sized buffers and enough room for all genuine
evictions, processing a removal sequence succeeds and overwrites exactly
the key-buffer segment `[c, c+k)` with the evicted keys (in order) and
the value-buffer segment `[c*w, (c+k)*w)` with the evicted rows, leaving
everything else untouched and the cursor at `c + k`. -/
theorem processEvents_capture (evs : List RemoveEvent) :
    ∀ (s : CacheState) (ibuf : List Int) (wbuf : EvBuf) (c : Nat),
    s.evicted_indices = some ibuf →
    s.evicted_weights = some wbuf →
    s.eviction_row_id = c →
    ibuf.length = wbuf.rows →
    wbuf.data.length = wbuf.rows * wbuf.width →
    (∀ e ∈ evictionsOf evs, e.bytes.length = wbuf.width) →
    c + (evictionsOf evs).length ≤ wbuf.rows →
    processEvents s evs = some
      { s with
        evicted_indices := some (ibuf.take c ++ (evictionsOf evs).map RemoveEvent.key
          ++ ibuf.drop (c + (evictionsOf evs).length))
        evicted_weights := some ⟨wbuf.rows, wbuf.width,
          wbuf.data.take (c * wbuf.width)
            ++ ((evictionsOf evs).map RemoveEvent.bytes).flatten
            ++ wbuf.data.drop ((c + (evictionsOf evs).length) * wbuf.width)⟩
        eviction_row_id := c + (evictionsOf evs).length } := by
  induction evs with
  | nil =>
    intro s ibuf wbuf c hi hw hc _ _ _ _
    simp only [processEvents, List.foldlM_nil, evictionsOf_nil, List.map_nil,
      List.length_nil, Nat.add_zero, List.nil_append, List.flatten_nil,
      List.take_append_drop]
    cases s
    simp_all
  | cons e rest ih =>
    intro s ibuf wbuf c hi hw hc hilen hwlen hbytes hroom
    cases hctx : e.context.isEviction with
    | false =>
      have hevs : evictionsOf (e :: rest) = evictionsOf rest := by
        rw [evictionsOf_cons, hctx]
        simp
      have hcb : eviction_cb s e = some s := by
        unfold eviction_cb
        rw [hw]
        cases hctx' : e.context with
        | kNormal => rfl
        | kEviction => rw [hctx'] at hctx; simp [RemoveContext.isEviction] at hctx
      rw [hevs] at hbytes hroom ⊢
      simp only [processEvents, List.foldlM_cons, hcb, Option.some_bind]
      exact ih s ibuf wbuf c hi hw hc hilen hwlen hbytes hroom
    | true =>
      have hctx' : e.context = RemoveContext.kEviction := by
        cases hc' : e.context
        · rfl
        · rw [hc'] at hctx; simp [RemoveContext.isEviction] at hctx
      have hevs : evictionsOf (e :: rest) = e :: evictionsOf rest := by
        rw [evictionsOf_cons, hctx]
        simp
      set k' := (evictionsOf rest).length with hk'
      have hklen : (evictionsOf (e :: rest)).length = k' + 1 := by
        rw [hevs]; simp [hk']
      have hroom' : c + (k' + 1) ≤ wbuf.rows := by rw [← hklen]; exact hroom
      have hcM : c < wbuf.rows := by omega
      have hcMi : c < ibuf.length := by omega
      have hblen : e.bytes.length = wbuf.width := by
        exact hbytes e (by rw [hevs]; exact List.mem_cons_self e (evictionsOf rest))
      -- the single capture step
      have hcb : eviction_cb s e = some
          { s with
            evicted_indices := some (ibuf.set c e.key)
            evicted_weights := some ⟨wbuf.rows, wbuf.width,
              writeSlice wbuf.data (c * wbuf.width) e.bytes⟩
            eviction_row_id := c + 1 } := by
        unfold eviction_cb
        rw [hw, hctx', hi, hc]
      set s₂ : CacheState :=
        { s with
          evicted_indices := some (ibuf.set c e.key)
          evicted_weights := some ⟨wbuf.rows, wbuf.width,
            writeSlice wbuf.data (c * wbuf.width) e.bytes⟩
          eviction_row_id := c + 1 } with hs₂
      have hoff_le : c * wbuf.width + wbuf.width ≤ wbuf.data.length := by
        rw [hwlen]
        calc c * wbuf.width + wbuf.width = (c + 1) * wbuf.width := by ring
          _ ≤ wbuf.rows * wbuf.width := Nat.mul_le_mul_right wbuf.width (by omega)
      have hwlen₂ : (writeSlice wbuf.data (c * wbuf.width) e.bytes).length
          = wbuf.rows * wbuf.width := by
        rw [writeSlice_length]
        · exact hwlen
        · rw [hblen]; exact hoff_le
      have hbytes' : ∀ x ∈ evictionsOf rest, x.bytes.length = wbuf.width := by
        intro x hx
        exact hbytes x (by rw [hevs]; exact List.mem_cons_of_mem e hx)
      have hrec := ih s₂ (ibuf.set c e.key)
        ⟨wbuf.rows, wbuf.width, writeSlice wbuf.data (c * wbuf.width) e.bytes⟩
        (c + 1) rfl rfl rfl (by simp [hilen]) hwlen₂ hbytes'
        (by show c + 1 + k' ≤ wbuf.rows; omega)
      have hfold : processEvents s (e :: rest) = processEvents s₂ rest := by
        simp only [processEvents, List.foldlM_cons, hcb]
        rfl
      have hidx : (ibuf.set c e.key).take (c + 1) ++ (evictionsOf rest).map RemoveEvent.key
            ++ (ibuf.set c e.key).drop (c + 1 + k')
          = ibuf.take c ++ (evictionsOf (e :: rest)).map RemoveEvent.key
            ++ ibuf.drop (c + (evictionsOf (e :: rest)).length) := by
        rw [take_set_succ ibuf c e.key hcMi, List.drop_set_of_lt e.key ibuf (by omega),
          hevs]
        simp only [List.map_cons, List.length_cons]
        have harith : c + ((evictionsOf rest).length + 1) = c + 1 + k' := by omega
        rw [harith]
        simp [List.append_assoc]
      have hwd : (writeSlice wbuf.data (c * wbuf.width) e.bytes).take ((c + 1) * wbuf.width)
            ++ ((evictionsOf rest).map RemoveEvent.bytes).flatten
            ++ (writeSlice wbuf.data (c * wbuf.width) e.bytes).drop
              ((c + 1 + k') * wbuf.width)
          = wbuf.data.take (c * wbuf.width)
            ++ ((evictionsOf (e :: rest)).map RemoveEvent.bytes).flatten
            ++ wbuf.data.drop ((c + (evictionsOf (e :: rest)).length) * wbuf.width) := by
        have hT : (writeSlice wbuf.data (c * wbuf.width) e.bytes).take ((c + 1) * wbuf.width)
            = wbuf.data.take (c * wbuf.width) ++ e.bytes := by
          have harith : (c + 1) * wbuf.width = c * wbuf.width + e.bytes.length := by
            rw [hblen]; ring
          rw [harith]
          exact writeSlice_take_exact wbuf.data e.bytes (c * wbuf.width) (by omega)
        have hD : (writeSlice wbuf.data (c * wbuf.width) e.bytes).drop
              ((c + 1 + k') * wbuf.width)
            = wbuf.data.drop ((c + 1 + k') * wbuf.width) := by
          have harith : (c + 1 + k') * wbuf.width
              = c * wbuf.width + e.bytes.length + k' * wbuf.width := by
            rw [hblen]; ring
          rw [harith]
          exact writeSlice_drop wbuf.data e.bytes (c * wbuf.width) (k' * wbuf.width)
            (by omega)
        rw [hT, hD, hevs]
        simp only [List.map_cons, List.flatten_cons, List.length_cons]
        have harith : c + ((evictionsOf rest).length + 1) = c + 1 + k' := by omega
        rw [harith]
        simp [List.append_assoc]
      rw [hfold, hrec]
      dsimp only
      rw [hidx, hwd, hklen]
      have harith : c + 1 + k' = c + (k' + 1) := by omega
      rw [harith]

theorem evictRev_kept_subset (need cap : Nat) (l : List (Int × List Int)) :
    ∀ e ∈ (evictRev need cap l).1, e ∈ l := by
  induction l with
  | nil => intro e he; simp [evictRev] at he
  | cons x rest ih =>
    intro e he
    unfold evictRev at he
    split at he
    · exact he
    · exact List.mem_cons_of_mem x (ih e he)

/-- Structural characterization of `CacheLibCache::put` when the target
pool exists and the capture buffers are bound: either allocation fails
(row larger than the pool) and the whole state is untouched with `false`
returned, or the row is inserted at the MRU head of the routed pool with
every other entry for `key` gone and `true` returned. -/
theorem put_cases (s : CacheState) (key : Int) (data : List Int) (pool : Pool)
    (hp : s.pools[CacheLibCache.get_shard_id s key]? = some pool)
    (hi : s.evicted_indices.isSome = true) (hw : s.evicted_weights.isSome = true) :
    (pool.capacity < data.length ∧ CacheLibCache.put s key data = some (false, s)) ∨
    (data.length ≤ pool.capacity ∧ ∃ (tail : List (Int × List Int)) (s' : CacheState),
      (∀ e ∈ tail, e.1 ≠ key) ∧
      CacheLibCache.put s key data = some (true, s') ∧
      s'.pools = s.pools.set (CacheLibCache.get_shard_id s key)
        ⟨pool.capacity, (key, data) :: tail⟩ ∧
      s'.cacheSizeBytes = s.cacheSizeBytes) := by
  by_cases hcap : pool.capacity < data.length
  · left
    refine ⟨hcap, ?_⟩
    simp only [CacheLibCache.put, hp, Pool.put, if_pos hcap]
  · right
    refine ⟨Nat.le_of_not_lt hcap, ?_⟩
    set rest := pool.entries.filter (fun e => e.1 != key) with hrest
    set r := evictRev data.length pool.capacity rest.reverse with hr
    set tail := r.1.reverse with htail
    have hpp : Pool.put pool key data
        = some (⟨pool.capacity, (key, data) :: tail⟩, r.2,
          (pool.entries.find? (fun e => e.1 == key)).map (fun e => e.2)) := by
      simp only [Pool.put, if_neg hcap]
    rcases processEvents_total
      (r.2.map (fun e => RemoveEvent.mk .kEviction e.1 e.2) ++
        (match (pool.entries.find? (fun e => e.1 == key)).map (fun e => e.2) with
         | none => []
         | some old => [RemoveEvent.mk .kNormal key old])) s hi hw with ⟨s₁, hproc⟩
    have hframe := processEvents_frame _ s s₁ hproc
    refine ⟨tail, { s₁ with
      pools := s₁.pools.set (CacheLibCache.get_shard_id s key)
        ⟨pool.capacity, (key, data) :: tail⟩ }, ?_, ?_, ?_, ?_⟩
    · intro e he
      have h1 : e ∈ r.1 := List.mem_reverse.mp he
      have h2 : e ∈ rest.reverse := evictRev_kept_subset data.length pool.capacity
        rest.reverse e h1
      have h3 : e ∈ rest := List.mem_reverse.mp h2
      have h4 := List.of_mem_filter h3
      simpa using h4
    · simp only [CacheLibCache.put, hp, hpp, hproc]
    · simp [hframe.1]
    · simp [hframe.2]

theorem lookup_first_some (key : Int) (v : List Int) (pools : List Pool) :
    ∀ (sid : Nat) (pool : Pool),
    pools[sid]? = some pool →
    pool.find key = some v →
    (∀ j p, j ≠ sid → pools[j]? = some p → p.find key = none) →
    ((pools.map (fun p => p.find key)).reduceOption).head? = some v := by
  induction pools with
  | nil => intro sid pool h; simp at h
  | cons p rest ih =>
    intro sid pool hp hv huniq
    match sid with
    | 0 =>
      simp only [List.getElem?_cons_zero] at hp
      injection hp with hp
      subst hp
      simp [List.map_cons, hv, List.reduceOption_cons_of_some]
    | n + 1 =>
      have hp0 : p.find key = none := huniq 0 p (by omega) (by simp)
      simp only [List.getElem?_cons_succ] at hp
      have huniq' : ∀ j q, j ≠ n → rest[j]? = some q → q.find key = none := by
        intro j q hj hq
        exact huniq (j + 1) q (by omega) (by simpa using hq)
      simp only [List.map_cons, hp0, List.reduceOption_cons_of_none]
      exact ih n pool hp hv huniq'

theorem set_self_of_getElem? (l : List Pool) (i : Nat) (p : Pool)
    (h : l[i]? = some p) : l.set i p = l := by
  apply List.ext_getElem?
  intro j
  rcases eq_or_ne i j with rfl | hne
  · rw [List.getElem?_set_self (List.getElem?_eq_some_iff.mp h).1]
    exact h.symm
  · rw [List.getElem?_set_ne hne]

/-- Inversion of a completed `put`: whatever branch was taken, the
configured capacity is untouched, pools other than the routed shard are
untouched, and the pool list is the old one with at most the routed slot
replaced. -/
theorem put_some_frame (s : CacheState) (key : Int) (data : List Int)
    (b : Bool) (s' : CacheState)
    (h : CacheLibCache.put s key data = some (b, s')) :
    s'.cacheSizeBytes = s.cacheSizeBytes ∧
    (∀ j, j ≠ CacheLibCache.get_shard_id s key → s'.pools[j]? = s.pools[j]?) ∧
    ∃ pool', s'.pools = s.pools.set (CacheLibCache.get_shard_id s key) pool' := by
  simp only [CacheLibCache.put] at h
  split at h
  · exact absurd h (by simp)
  · rename_i pool hp
    split at h
    · simp only [Option.some.injEq, Prod.mk.injEq] at h
      rw [← h.2]
      exact ⟨rfl, fun j _ => rfl, pool, (set_self_of_getElem? s.pools _ pool hp).symm⟩
    · rename_i pool' victims replaced hpp
      split at h
      · exact absurd h (by simp)
      · rename_i s₁ hpe
        simp only [Option.some.injEq, Prod.mk.injEq] at h
        rw [← h.2]
        have hframe := processEvents_frame _ s s₁ hpe
        refine ⟨hframe.2, fun j hj => ?_, pool', by rw [hframe.1]⟩
        simp only [hframe.1, List.getElem?_set_ne (Ne.symm hj)]

/-! ### Claim theorems -/

/-- C4 counterexample: constructing the cache with zero shards is NOT a
fatal error surfaced at construction — the shard loop simply never runs
and the constructor returns an ordinary (pool-less) cache object. -/
theorem construct_zero_shards_returns_object :
    CacheLibCache.construct 1024 0 =
      { cacheSizeBytes := 1024, pools := [], evicted_indices := none,
        evicted_weights := none, eviction_row_id := 0 } := rfl

/-- C4 (amended): the constructor performs no validation of its
arguments: for every capacity and shard count it returns a cache object
with `num_shards.toNat` empty pools of `cacheSizeBytes / num_shards.toNat`
bytes each; in particular a shard count ≤ 0 yields a usable-looking
object with no pools instead of a construction-time failure (the invariant
violation surfaces only later, at routing/usage time). -/
theorem construct_no_validation (cap : Nat) (n : Int) :
    (CacheLibCache.construct cap n).pools.length = n.toNat ∧
    (CacheLibCache.construct cap n).cacheSizeBytes = cap ∧
    (∀ p ∈ (CacheLibCache.construct cap n).pools,
      p.capacity = cap / n.toNat ∧ p.entries = []) ∧
    (n ≤ 0 → (CacheLibCache.construct cap n).pools = []) := by
  refine ⟨by simp [CacheLibCache.construct], rfl, ?_, ?_⟩
  · intro p hp
    simp only [CacheLibCache.construct, List.mem_map] at hp
    rcases hp with ⟨i, _, hi⟩
    rw [← hi]
    exact ⟨rfl, rfl⟩
  · intro hn
    simp [CacheLibCache.construct, Int.toNat_of_nonpos hn]

theorem construct_no_validation_witness :
    (CacheLibCache.construct 1024 0).pools = [] :=
  (construct_no_validation 1024 0).2.2.2 (by decide)

/-- C6: `get_cache_usage` returns exactly two values — the sum of the
pools' free bytes and the configured total capacity — and mutates no
cache state; the reported capacity is the same constant for the whole
life of the instance (every operation preserves `cacheSizeBytes`). -/
theorem get_cache_usage_spec (s : CacheState) (key : Int) (data : List Int)
    (w n : Nat) :
    (CacheLibCache.get_cache_usage s).1 =
      [((s.pools.map Pool.freeBytes).sum : Int), (s.cacheSizeBytes : Int)] ∧
    (CacheLibCache.get_cache_usage s).1.length = 2 ∧
    (CacheLibCache.get_cache_usage s).2 = s ∧
    (CacheLibCache.get s key).2.cacheSizeBytes = s.cacheSizeBytes ∧
    (∀ b s', CacheLibCache.put s key data = some (b, s') →
      s'.cacheSizeBytes = s.cacheSizeBytes) ∧
    (CacheLibCache.init_tensor_for_l2_eviction s w n).cacheSizeBytes
      = s.cacheSizeBytes ∧
    (CacheLibCache.reset_eviction_states s).cacheSizeBytes = s.cacheSizeBytes := by
  refine ⟨rfl, rfl, rfl, ?_, ?_, rfl, rfl⟩
  · unfold CacheLibCache.get
    split <;> rfl
  · intro b s' h
    exact (put_some_frame s key data b s' h).1

theorem get_cache_usage_spec_witness :
    (CacheLibCache.get_cache_usage
        ⟨100, [⟨50, [((7 : Int), [(1 : Int), 2])]⟩, ⟨50, []⟩], none, none, 0⟩).1
      = [98, 100] := by
  have h := (get_cache_usage_spec
    ⟨100, [⟨50, [((7 : Int), [(1 : Int), 2])]⟩, ⟨50, []⟩], none, none, 0⟩
    7 [] 0 0).1
  rw [h]
  decide

/-- C7: `init_tensor_for_l2_eviction` binds a key buffer of length `n`
(the count argument) with every slot holding the sentinel −1, and a
value buffer of shape `n × w` (contents unconstrained). -/
theorem init_tensor_spec (s : CacheState) (w n : Nat) :
    (∃ ibuf, (CacheLibCache.init_tensor_for_l2_eviction s w n).evicted_indices
        = some ibuf ∧ ibuf.length = n ∧ ∀ x ∈ ibuf, x = -1) ∧
    (∃ wbuf, (CacheLibCache.init_tensor_for_l2_eviction s w n).evicted_weights
        = some wbuf ∧ wbuf.rows = n ∧ wbuf.width = w ∧
        wbuf.data.length = n * w) := by
  refine ⟨⟨List.replicate n (-1), rfl, List.length_replicate n (-1), ?_⟩,
    ⟨⟨n, w, List.replicate (n * w) 0⟩, rfl, rfl, rfl, List.length_replicate _ _⟩⟩
  intro x hx
  exact List.eq_of_mem_replicate hx

theorem init_tensor_spec_witness :
    ∃ ibuf, (CacheLibCache.init_tensor_for_l2_eviction
        ⟨100, [], none, none, 0⟩ 4 3).evicted_indices = some ibuf ∧
      ibuf.length = 3 ∧ ∀ x ∈ ibuf, x = -1 :=
  (init_tensor_spec ⟨100, [], none, none, 0⟩ 4 3).1

/-- C9: binding fresh capture buffers leaves the eviction cursor
untouched (only `reset_eviction_states` zeroes it), so a capture right
after `init_tensor_for_l2_eviction` without a reset writes at the
previous cycle's stale cursor offset, not at slot 0. -/
theorem init_tensor_keeps_stale_cursor (s : CacheState) (w n : Nat)
    (ev : RemoveEvent) :
    (CacheLibCache.init_tensor_for_l2_eviction s w n).eviction_row_id
      = s.eviction_row_id ∧
    (CacheLibCache.reset_eviction_states s).eviction_row_id = 0 ∧
    (ev.context = RemoveContext.kEviction →
      eviction_cb (CacheLibCache.init_tensor_for_l2_eviction s w n) ev = some
        { s with
          evicted_indices :=
            some ((List.replicate n (-1)).set s.eviction_row_id ev.key)
          evicted_weights := some ⟨n, w,
            writeSlice (List.replicate (n * w) 0) (s.eviction_row_id * w) ev.bytes⟩
          eviction_row_id := s.eviction_row_id + 1 }) := by
  refine ⟨rfl, rfl, ?_⟩
  intro h
  simp only [eviction_cb, CacheLibCache.init_tensor_for_l2_eviction, h]

theorem init_tensor_keeps_stale_cursor_witness :
    eviction_cb (CacheLibCache.init_tensor_for_l2_eviction
        ⟨64, [], none, none, 5⟩ 2 8) ⟨RemoveContext.kEviction, 42, [7, 9]⟩ = some
      { cacheSizeBytes := 64, pools := [],
        evicted_indices := some ((List.replicate 8 (-1)).set 5 42)
        evicted_weights := some ⟨8, 2,
          writeSlice (List.replicate 16 0) 10 [7, 9]⟩
        eviction_row_id := 6 } :=
  (init_tensor_keeps_stale_cursor ⟨64, [], none, none, 5⟩ 2 8
    ⟨RemoveContext.kEviction, 42, [7, 9]⟩).2.2 rfl

theorem processEvents_unbound_ne_nil (s : CacheState) (evs : List RemoveEvent)
    (h : s.evicted_weights = none) (hne : evs ≠ []) :
    processEvents s evs = none := by
  match evs with
  | [] => exact absurd rfl hne
  | e :: rest => exact processEvents_unbound s e rest h

/-- C10: the remove callback dereferences the weight-buffer pointer (for
type dispatch) before checking the removal context, so with unbound
buffers every removal event crashes it — including the `kNormal` removal
a replacing `put` triggers — while with both buffers bound the callback
is total. -/
theorem eviction_cb_derefs_buffer_before_context_check (s : CacheState)
    (ev : RemoveEvent) (key : Int) (data old : List Int) (pool : Pool) :
    (s.evicted_weights = none → eviction_cb s ev = none) ∧
    (s.evicted_indices.isSome = true → s.evicted_weights.isSome = true →
      (eviction_cb s ev).isSome = true) ∧
    (s.evicted_weights = none →
      s.pools[CacheLibCache.get_shard_id s key]? = some pool →
      pool.find key = some old →
      data.length ≤ pool.capacity →
      CacheLibCache.put s key data = none) := by
  refine ⟨?_, ?_, ?_⟩
  · intro h
    unfold eviction_cb
    rw [h]
  · intro hi hw
    rcases eviction_cb_total s ev hi hw with ⟨s', h, _, _⟩
    rw [h]
    rfl
  · intro hw hp hfind hcap
    have hcap' : ¬pool.capacity < data.length := Nat.not_lt.mpr hcap
    simp only [Pool.find] at hfind
    have hpp : Pool.put pool key data = some
        (⟨pool.capacity, (key, data) ::
            (evictRev data.length pool.capacity
              ((pool.entries.filter (fun e => e.1 != key)).reverse)).1.reverse⟩,
          (evictRev data.length pool.capacity
            ((pool.entries.filter (fun e => e.1 != key)).reverse)).2,
          some old) := by
      simp only [Pool.put, if_neg hcap', hfind]
    have hnone : processEvents s
        (((evictRev data.length pool.capacity
            ((pool.entries.filter (fun e => e.1 != key)).reverse)).2).map
          (fun e => RemoveEvent.mk .kEviction e.1 e.2) ++
          [RemoveEvent.mk .kNormal key old]) = none := by
      apply processEvents_unbound_ne_nil s _ hw
      simp
    simp only [CacheLibCache.put, hp, hpp, hnone]

theorem eviction_cb_derefs_buffer_before_context_check_witness :
    CacheLibCache.put
      ⟨100, [⟨50, [((7 : Int), [(1 : Int), 2])]⟩, ⟨50, []⟩], none, none, 0⟩
      7 [3, 4] = none :=
  (eviction_cb_derefs_buffer_before_context_check
    ⟨100, [⟨50, [((7 : Int), [(1 : Int), 2])]⟩, ⟨50, []⟩], none, none, 0⟩
    ⟨RemoveContext.kNormal, 0, []⟩ 7 [3, 4] [1, 2] ⟨50, [(7, [1, 2])]⟩).2.2
    rfl (by decide) (by decide) (by decide)

/-- C8: shard routing is deterministic — the shard index is a pure
function of the key and the (construction-fixed) shard count, it is
strictly below the shard count whenever there is at least one shard, and
`put` touches no pool other than the one that index selects. -/
theorem shard_routing_deterministic (s t : CacheState) (key : Int)
    (data : List Int) :
    (s.pools.length = t.pools.length →
      CacheLibCache.get_shard_id s key = CacheLibCache.get_shard_id t key) ∧
    (0 < s.pools.length →
      CacheLibCache.get_shard_id s key < s.pools.length) ∧
    (∀ b s', CacheLibCache.put s key data = some (b, s') →
      (∀ j, j ≠ CacheLibCache.get_shard_id s key → s'.pools[j]? = s.pools[j]?) ∧
      ∃ pool', s'.pools = s.pools.set (CacheLibCache.get_shard_id s key) pool') := by
  refine ⟨?_, ?_, ?_⟩
  · intro hlen
    simp only [CacheLibCache.get_shard_id, hlen]
  · intro hpos
    exact Nat.mod_lt _ hpos
  · intro b s' h
    exact ⟨(put_some_frame s key data b s' h).2.1,
      (put_some_frame s key data b s' h).2.2⟩

theorem shard_routing_deterministic_witness :
    CacheLibCache.get_shard_id ⟨100, [⟨50, []⟩, ⟨50, []⟩], none, none, 0⟩ 7 < 2 :=
  (shard_routing_deterministic ⟨100, [⟨50, []⟩, ⟨50, []⟩], none, none, 0⟩
    ⟨100, [⟨50, []⟩, ⟨50, []⟩], none, none, 0⟩ 7 []).2.1 (by decide)

/-- C1: with the routed pool present and capture buffers bound, `put`
either reports allocation failure — returning `false` with the cache
contents completely unchanged — or succeeds, returning `true` with the
row bytes stored under `key` at the MRU head of the routed pool and any
previous entry for `key` gone (insert-or-replace). -/
theorem put_success_or_allocation_failure (s : CacheState) (key : Int)
    (data : List Int) (pool : Pool)
    (hp : s.pools[CacheLibCache.get_shard_id s key]? = some pool)
    (hi : s.evicted_indices.isSome = true)
    (hw : s.evicted_weights.isSome = true) :
    (pool.capacity < data.length ∧
      CacheLibCache.put s key data = some (false, s)) ∨
    (data.length ≤ pool.capacity ∧
      ∃ (s' : CacheState) (tail : List (Int × List Int)),
        CacheLibCache.put s key data = some (true, s') ∧
        s'.pools[CacheLibCache.get_shard_id s key]? =
          some ⟨pool.capacity, (key, data) :: tail⟩ ∧
        (∀ e ∈ tail, e.1 ≠ key) ∧
        s'.cacheSizeBytes = s.cacheSizeBytes) := by
  have hlt : CacheLibCache.get_shard_id s key < s.pools.length :=
    (List.getElem?_eq_some_iff.mp hp).1
  rcases put_cases s key data pool hp hi hw with
    ⟨hcap, hfail⟩ | ⟨hcap, tail, s', htail, hput, hpools, hsize⟩
  · exact Or.inl ⟨hcap, hfail⟩
  · refine Or.inr ⟨hcap, s', tail, hput, ?_, htail, hsize⟩
    rw [hpools]
    exact List.getElem?_set_self hlt

theorem put_success_or_allocation_failure_witness :
    CacheLibCache.put
      (CacheLibCache.init_tensor_for_l2_eviction (CacheLibCache.construct 8 2) 2 4)
      7 [1, 2, 3, 4, 5] =
    some (false, CacheLibCache.init_tensor_for_l2_eviction
      (CacheLibCache.construct 8 2) 2 4) := by
  rcases put_success_or_allocation_failure
      (CacheLibCache.init_tensor_for_l2_eviction (CacheLibCache.construct 8 2) 2 4)
      7 [1, 2, 3, 4, 5] ⟨4, []⟩ (by decide) rfl rfl with ⟨_, h⟩ | ⟨hc, _⟩
  · exact h
  · exact absurd hc (by decide)

/-- C5: a successful `put(K, B)` followed immediately by `get(K)` (no
intervening operation, and `K` resident in no foreign shard) returns
exactly the stored bytes `B`. -/
theorem put_get_round_trip (s : CacheState) (key : Int) (data : List Int)
    (pool : Pool) (s' : CacheState)
    (hp : s.pools[CacheLibCache.get_shard_id s key]? = some pool)
    (hi : s.evicted_indices.isSome = true)
    (hw : s.evicted_weights.isSome = true)
    (huniq : ∀ j p, j ≠ CacheLibCache.get_shard_id s key →
      s.pools[j]? = some p → p.find key = none)
    (hput : CacheLibCache.put s key data = some (true, s')) :
    (CacheLibCache.get s' key).1 = some data := by
  have hlt : CacheLibCache.get_shard_id s key < s.pools.length :=
    (List.getElem?_eq_some_iff.mp hp).1
  rcases put_cases s key data pool hp hi hw with
    ⟨_, hfail⟩ | ⟨_, tail, t, _, hput', hpools, _⟩
  · rw [hput] at hfail
    simp at hfail
  · rw [hput] at hput'
    simp only [Option.some.injEq, Prod.mk.injEq, true_and] at hput'
    have hpools' : s'.pools = s.pools.set (CacheLibCache.get_shard_id s key)
        ⟨pool.capacity, (key, data) :: tail⟩ := by
      rw [hput']
      exact hpools
    have hfind : (Pool.mk pool.capacity ((key, data) :: tail)).find key
        = some data := by
      simp [Pool.find, List.find?_cons]
    have hgets : s'.pools[CacheLibCache.get_shard_id s key]? =
        some ⟨pool.capacity, (key, data) :: tail⟩ := by
      rw [hpools']
      exact List.getElem?_set_self hlt
    have huniq' : ∀ j p, j ≠ CacheLibCache.get_shard_id s key →
        s'.pools[j]? = some p → p.find key = none := by
      intro j p hj hjp
      apply huniq j p hj
      rw [hpools', List.getElem?_set_ne (Ne.symm hj)] at hjp
      exact hjp
    have hlook := lookup_first_some key data s'.pools
      (CacheLibCache.get_shard_id s key) ⟨pool.capacity, (key, data) :: tail⟩
      hgets hfind huniq'
    simp only [CacheLibCache.get, hlook]

theorem put_get_round_trip_witness :
    (CacheLibCache.get
      ⟨8, [⟨4, [((7 : Int), [(1 : Int), 2])]⟩, ⟨4, []⟩],
        some [-1, -1, -1, -1], some ⟨4, 2, [0, 0, 0, 0, 0, 0, 0, 0]⟩, 0⟩ 7).1
      = some [1, 2] :=
  put_get_round_trip
    (CacheLibCache.init_tensor_for_l2_eviction (CacheLibCache.construct 8 2) 2 4)
    7 [1, 2] ⟨4, []⟩
    ⟨8, [⟨4, [((7 : Int), [(1 : Int), 2])]⟩, ⟨4, []⟩],
      some [-1, -1, -1, -1], some ⟨4, 2, [0, 0, 0, 0, 0, 0, 0, 0]⟩, 0⟩
    (by decide) rfl rfl
    (by
      intro j p hj hjp
      match j with
      | 0 => exact absurd (by decide) hj
      | 1 =>
        injection hjp with h
        rw [← h]
        rfl
      | n + 2 =>
        have hl : (CacheLibCache.init_tensor_for_l2_eviction
            (CacheLibCache.construct 8 2) 2 4).pools.length = 2 := by decide
        rw [List.getElem?_eq_none (by rw [hl]; omega)] at hjp
        exact Option.noConfusion hjp)
    (by decide)

/-- C2: processing a cycle's removal events with bound, correctly sized
buffers and the cursor reset to 0 succeeds; only the genuine evictions
are captured — exactly once each, `kNormal` removals (overwrites) leave
the capture state untouched — and afterwards the first `k` key-buffer
slots are exactly the evicted keys in eviction order, the corresponding
value-buffer row slices are exactly the evicted bytes, nothing past
slot `k` is written, and the cursor equals `k`. -/
theorem eviction_capture_exact (evs : List RemoveEvent) (s : CacheState)
    (ibuf : List Int) (wbuf : EvBuf)
    (hi : s.evicted_indices = some ibuf)
    (hw : s.evicted_weights = some wbuf)
    (hc : s.eviction_row_id = 0)
    (hilen : ibuf.length = wbuf.rows)
    (hwlen : wbuf.data.length = wbuf.rows * wbuf.width)
    (hbytes : ∀ e ∈ evictionsOf evs, e.bytes.length = wbuf.width)
    (hroom : (evictionsOf evs).length ≤ wbuf.rows) :
    ∃ s', processEvents s evs = some s' ∧
      s'.eviction_row_id = (evictionsOf evs).length ∧
      (∃ ibuf', s'.evicted_indices = some ibuf' ∧
        ibuf'.take (evictionsOf evs).length
          = (evictionsOf evs).map RemoveEvent.key ∧
        ibuf'.drop (evictionsOf evs).length
          = ibuf.drop (evictionsOf evs).length ∧
        ibuf'.length = ibuf.length) ∧
      (∃ wdata', s'.evicted_weights = some ⟨wbuf.rows, wbuf.width, wdata'⟩ ∧
        (∀ i, i < (evictionsOf evs).length →
          ((evictionsOf evs).map RemoveEvent.bytes)[i]?
            = some ((wdata'.drop (i * wbuf.width)).take wbuf.width)) ∧
        wdata'.drop ((evictionsOf evs).length * wbuf.width)
          = wbuf.data.drop ((evictionsOf evs).length * wbuf.width)) ∧
      (evictionsOf evs = [] → s' = s) := by
  have hmain := processEvents_capture evs s ibuf wbuf 0 hi hw hc hilen hwlen
    hbytes (by omega)
  set k := (evictionsOf evs).length with hk
  have hkeys : ((evictionsOf evs).map RemoveEvent.key).length = k := by
    simp [hk]
  have hkle : k ≤ ibuf.length := by omega
  refine ⟨_, hmain, by simp, ?_, ?_, ?_⟩
  · refine ⟨_, rfl, ?_, ?_, ?_⟩
    · simp only [List.take_zero, List.nil_append, Nat.zero_add]
      rw [← hkeys]
      simp
    · simp only [List.take_zero, List.nil_append, Nat.zero_add]
      rw [← hkeys]
      simp
    · simp only [List.take_zero, List.nil_append, Nat.zero_add,
        List.length_append, List.length_drop, hkeys]
      omega
  · refine ⟨_, rfl, ?_, ?_⟩
    · intro i hik
      simp only [List.take_zero, Nat.zero_mul, List.drop_zero, List.nil_append,
        Nat.zero_add]
      apply flatten_slice wbuf.width ((evictionsOf evs).map RemoveEvent.bytes)
        i (wbuf.data.drop (k * wbuf.width)) ?_ (by simpa using hik)
      intro r hr
      rcases List.mem_map.mp hr with ⟨e, he, hre⟩
      rw [← hre]
      exact hbytes e he
    · simp only [List.take_zero, Nat.zero_mul, List.drop_zero, List.nil_append,
        Nat.zero_add]
      have hflat : (((evictionsOf evs).map RemoveEvent.bytes).flatten).length
          = k * wbuf.width := by
        rw [flatten_uniform_length wbuf.width _ ?_]
        · simp [hk]
        · intro r hr
          rcases List.mem_map.mp hr with ⟨e, he, hre⟩
          rw [← hre]
          exact hbytes e he
      rw [← hflat]
      simp
  · intro hempty
    simp only [hempty, List.map_nil, List.length_nil, Nat.add_zero,
      List.take_zero, List.nil_append, List.flatten_nil, Nat.zero_mul,
      List.drop_zero, List.take_append_drop]
    cases s
    simp_all

theorem eviction_capture_exact_witness :
    ∃ s', processEvents
      (CacheLibCache.init_tensor_for_l2_eviction (CacheLibCache.construct 8 2) 2 3)
      [⟨RemoveContext.kEviction, 5, [10, 20]⟩, ⟨RemoveContext.kNormal, 5, [0, 0]⟩,
        ⟨RemoveContext.kEviction, 6, [30, 40]⟩] = some s' ∧
      s'.eviction_row_id = 2 ∧
      (∃ ibuf', s'.evicted_indices = some ibuf' ∧ ibuf'.take 2 = [5, 6]) := by
  rcases eviction_capture_exact
      [⟨RemoveContext.kEviction, 5, [10, 20]⟩, ⟨RemoveContext.kNormal, 5, [0, 0]⟩,
        ⟨RemoveContext.kEviction, 6, [30, 40]⟩]
      (CacheLibCache.init_tensor_for_l2_eviction (CacheLibCache.construct 8 2) 2 3)
      [-1, -1, -1] ⟨3, 2, [0, 0, 0, 0, 0, 0]⟩ rfl rfl rfl (by decide) (by decide)
      (by decide) (by decide) with ⟨s', hs', hcur, ⟨ibuf', hib, htake, _⟩, _⟩
  refine ⟨s', hs', by rw [hcur]; decide, ibuf', hib, ?_⟩
  have hlen2 : (evictionsOf
      [⟨RemoveContext.kEviction, 5, [10, 20]⟩, ⟨RemoveContext.kNormal, 5, [0, 0]⟩,
        ⟨RemoveContext.kEviction, 6, [30, 40]⟩]).length = 2 := by decide
  rw [← hlen2, htake]
  decide

theorem evictionsOf_append (p q : List RemoveEvent) :
    evictionsOf (p ++ q) = evictionsOf p ++ evictionsOf q :=
  List.filter_append p q

/-- C3: within one cycle with bound buffers of `M` rows, at most `M`
genuine evictions in the event sequence and the cursor reset to 0, the
cursor never exceeds `M` after any prefix of the events, and whenever a
capture is about to happen the pending key-buffer write index and
value-buffer slice both lie strictly within the bound buffers. -/
theorem eviction_cursor_and_writes_in_bounds (p q : List RemoveEvent)
    (s : CacheState) (ibuf : List Int) (wbuf : EvBuf)
    (hi : s.evicted_indices = some ibuf)
    (hw : s.evicted_weights = some wbuf)
    (hc : s.eviction_row_id = 0)
    (hilen : ibuf.length = wbuf.rows)
    (hwlen : wbuf.data.length = wbuf.rows * wbuf.width)
    (hbytes : ∀ e ∈ evictionsOf (p ++ q), e.bytes.length = wbuf.width)
    (hroom : (evictionsOf (p ++ q)).length ≤ wbuf.rows) :
    ∃ sp, processEvents s p = some sp ∧
      sp.eviction_row_id = (evictionsOf p).length ∧
      sp.eviction_row_id ≤ wbuf.rows ∧
      (∀ e rest, q = e :: rest → e.context.isEviction = true →
        sp.eviction_row_id < wbuf.rows ∧
        (∃ ibufp, sp.evicted_indices = some ibufp ∧
          ibufp.length = wbuf.rows ∧ sp.eviction_row_id < ibufp.length) ∧
        (∃ wbufp, sp.evicted_weights = some wbufp ∧
          wbufp.width = wbuf.width ∧ wbufp.data.length = wbuf.data.length ∧
          sp.eviction_row_id * wbuf.width + wbuf.width ≤ wbufp.data.length)) := by
  have hsplit : (evictionsOf p).length + (evictionsOf q).length ≤ wbuf.rows := by
    rw [evictionsOf_append] at hroom
    simpa using hroom
  have hbp : ∀ e ∈ evictionsOf p, e.bytes.length = wbuf.width := by
    intro e he
    apply hbytes
    rw [evictionsOf_append]
    exact List.mem_append_left _ he
  have hmain := processEvents_capture p s ibuf wbuf 0 hi hw hc hilen hwlen
    hbp (by omega)
  set kp := (evictionsOf p).length with hkp
  have hkeys : ((evictionsOf p).map RemoveEvent.key).length = kp := by
    simp [hkp]
  have hflat : (((evictionsOf p).map RemoveEvent.bytes).flatten).length
      = kp * wbuf.width := by
    rw [flatten_uniform_length wbuf.width _ ?_]
    · simp [hkp]
    · intro r hr
      rcases List.mem_map.mp hr with ⟨e, he, hre⟩
      rw [← hre]
      exact hbp e he
  have hkle : kp ≤ ibuf.length := by omega
  refine ⟨_, hmain, by simp, by simp; omega, ?_⟩
  intro e rest hq hev
  have hq1 : 1 ≤ (evictionsOf q).length := by
    rw [hq, evictionsOf_cons, hev]
    simp
  have hkplt : kp < wbuf.rows := by omega
  refine ⟨by simpa using hkplt, ⟨_, rfl, ?_, ?_⟩, ⟨_, rfl, rfl, ?_, ?_⟩⟩
  · simp only [List.take_zero, List.nil_append, Nat.zero_add,
      List.length_append, List.length_drop, hkeys]
    omega
  · simp only [List.take_zero, List.nil_append, Nat.zero_add,
      List.length_append, List.length_drop, hkeys]
    omega
  · simp only [List.take_zero, Nat.zero_mul, List.drop_zero, List.nil_append,
      Nat.zero_add, List.length_append, List.length_drop, hflat]
    have : kp * wbuf.width ≤ wbuf.data.length := by
      rw [hwlen]
      exact Nat.mul_le_mul_right wbuf.width (by omega)
    omega
  · simp only [List.take_zero, Nat.zero_mul, List.drop_zero, List.nil_append,
      Nat.zero_add, List.length_append, List.length_drop, hflat]
    have h1 : kp * wbuf.width ≤ wbuf.data.length := by
      rw [hwlen]
      exact Nat.mul_le_mul_right wbuf.width (by omega)
    have h2 : kp * wbuf.width + wbuf.width ≤ wbuf.data.length := by
      rw [hwlen]
      calc kp * wbuf.width + wbuf.width = (kp + 1) * wbuf.width := by ring
        _ ≤ wbuf.rows * wbuf.width := Nat.mul_le_mul_right wbuf.width (by omega)
    omega

theorem eviction_cursor_and_writes_in_bounds_witness :
    ∃ sp, processEvents
      (CacheLibCache.init_tensor_for_l2_eviction (CacheLibCache.construct 8 2) 2 3)
      [⟨RemoveContext.kEviction, 5, [10, 20]⟩] = some sp ∧
      sp.eviction_row_id = 1 ∧ sp.eviction_row_id < 3 := by
  rcases eviction_cursor_and_writes_in_bounds
      [⟨RemoveContext.kEviction, 5, [10, 20]⟩]
      [⟨RemoveContext.kEviction, 6, [30, 40]⟩]
      (CacheLibCache.init_tensor_for_l2_eviction (CacheLibCache.construct 8 2) 2 3)
      [-1, -1, -1] ⟨3, 2, [0, 0, 0, 0, 0, 0]⟩ rfl rfl rfl (by decide) (by decide)
      (by decide) (by decide) with ⟨sp, hsp, hcur, _, hbound⟩
  have hb := hbound ⟨RemoveContext.kEviction, 6, [30, 40]⟩ [] rfl rfl
  refine ⟨sp, hsp, by rw [hcur]; decide, ?_⟩
  have : sp.eviction_row_id < (3 : Nat) := by
    have := hb.1
    simpa using this
  exact this

end l2_cache
